import Mathlib

/-!
Verification of the Kakuro CSP engine (src/kakuro_csp.py) against its
natural-language specification.

The Python classes KakuroConstraint and KakuroCSP are shallowly embedded:
dictionaries become association lists (insertion-ordered, like Python dicts),
Python ints become Int, and every method becomes a pure Lean function that
threads the mutable state (the domains dictionary and the step counter)
explicitly.  Methods that can raise (dict KeyError, min of an empty sequence)
return Option, with none standing for the raised exception.
-/

namespace KakuroSpec

/-- Grid positions (row, col), the variables of the CSP. -/
abbrev Var := Nat × Nat

/-- Embeds class KakuroConstraint: a participant list and a required sum. -/
structure KakuroConstraint where
  vars : List Var  -- the Python attribute is named variables, a reserved word here
  sum : Int
deriving DecidableEq

/-- A Python dict from variables to values, as an insertion-ordered
association list with unique keys. -/
abbrev Assignment := List (Var × Int)

/-- Dict lookup: assignment[v], as an Option. -/
def aLookup : Assignment → Var → Option Int
  | [], _ => none
  | (k, x) :: t, v => if k = v then some x else aLookup t v

/-- Dict membership test: v in assignment. -/
def aHasKey (a : Assignment) (v : Var) : Bool :=
  (aLookup a v).isSome

/-- Dict write assignment[v] = x (or the dict expansion with v mapped to x):
replaces the value in place if the key is present, appends otherwise. -/
def aInsert : Assignment → Var → Int → Assignment
  | [], v, x => [(v, x)]
  | (k, y) :: t, v, x => if k = v then (k, x) :: t else (k, y) :: aInsert t v x

/-- Embeds KakuroConstraint.is_satisfied: true when some participant is
unassigned; otherwise true iff the participants sum to the target.
(The source performs no all-different check.) -/
def KakuroConstraint.is_satisfied (c : KakuroConstraint) (assignment : Assignment) : Bool :=
  if c.vars.all (fun v => aHasKey assignment v) then
    (c.vars.map (fun v => (aLookup assignment v).getD 0)).sum = c.sum
  else
    true

/-- The six algorithm flags of the options dict, all present. -/
structure Options where
  nc : Bool
  ac3 : Bool
  fc : Bool
  mac : Bool
  mrv : Bool
  lcv : Bool
deriving DecidableEq

/-- An options dict that may be missing some of the six keys
(none models an absent key, whose read raises KeyError). -/
structure OptionsPart where
  nc : Option Bool
  ac3 : Option Bool
  fc : Option Bool
  mac : Option Bool
  mrv : Option Bool
  lcv : Option Bool
deriving DecidableEq

/-- The immutable part of a KakuroCSP object: the variable list, the
constraint list and the options record. -/
structure Ctx where
  vars : List Var  -- the Python attribute is named variables, a reserved word here
  constraints : List KakuroConstraint
  options : Options
deriving DecidableEq

/-- The per-variable constraint index self.constraints[v]
(built in __init__ as the constraints whose participant list contains v). -/
def constraintsOf (cons : List KakuroConstraint) (v : Var) : List KakuroConstraint :=
  cons.filter (fun c => v ∈ c.vars)

/-- Embeds KakuroCSP.is_consistent: all constraints touching the variable
are satisfied by the assignment. -/
def is_consistent (cons : List KakuroConstraint) (v : Var) (assignment : Assignment) : Bool :=
  (constraintsOf cons v).all (fun c => c.is_satisfied assignment)

/-- The domains dict self.domains, insertion-ordered like the Python dict. -/
abbrev Domains := List (Var × List Int)

/-- self.domains[v], reading [] for an absent key (the claims below never
exercise the absent-key KeyError path). -/
def lookupD : Domains → Var → List Int
  | [], _ => []
  | (k, d) :: t, v => if k = v then d else lookupD t v

/-- self.domains[v] = d: replace in place, append if absent. -/
def setD : Domains → Var → List Int → Domains
  | [], v, d => [(v, d)]
  | (k, e) :: t, v, d => if k = v then (k, d) :: t else (k, e) :: setD t v d

/-- self.domains[v].remove(x): drop the first occurrence of x from the
domain of v (Python raises ValueError when x is absent; on the executions
modelled here x is always present). -/
def removeD : Domains → Var → Int → Domains
  | [], _, _ => []
  | (k, d) :: t, v, x => if k = v then (k, d.erase x) :: t else (k, d) :: removeD t v x

/-- list(range(1, 10)), the initial domain of every variable. -/
def digits : List Int := [1, 2, 3, 4, 5, 6, 7, 8, 9]

/-- Python min over the sums of a nonempty constraint list. -/
def minSum (c : KakuroConstraint) (cs : List KakuroConstraint) : Int :=
  cs.foldl (fun m c' => min m c'.sum) c.sum

/-- Python min over the participant counts of a nonempty constraint list. -/
def minVars (c : KakuroConstraint) (cs : List KakuroConstraint) : Int :=
  cs.foldl (fun m c' => min m (c'.vars.length : Int)) (c.vars.length : Int)

/-- The loop of KakuroCSP.node_consistency: for each variable filter its
domain by the bound minSum - minVars + 1, returning false as soon as a
domain empties.  none models the ValueError that Python min raises when a
variable occurs in no constraint. -/
def ncLoop (cons : List KakuroConstraint) : List Var → Domains → Option (Bool × Domains)
  | [], doms => some (true, doms)
  | v :: rest, doms =>
    match constraintsOf cons v with
    | [] => none
    | c :: cs =>
      let nd := (lookupD doms v).filter (fun x => x ≤ minSum c cs - minVars c cs + 1)
      let doms' := setD doms v nd
      if nd = [] then some (false, doms') else ncLoop cons rest doms'

/-- Embeds KakuroCSP.node_consistency, gated on the nc flag. -/
def node_consistency (ctx : Ctx) (doms : Domains) : Option (Bool × Domains) :=
  if ctx.options.nc then ncLoop ctx.constraints ctx.vars doms
  else some (true, doms)

/-- Embeds KakuroCSP.get_neighbours: the unassigned variables sharing a
constraint with the given variable, other than the variable itself. -/
def get_neighbours (cons : List KakuroConstraint) (v : Var) (unassigned : List Var) : List Var :=
  unassigned.filter (fun u =>
    u ∈ (constraintsOf cons v).flatMap (fun c => c.vars) ∧ u ≠ v)

/-- Inner loop of KakuroCSP.forward_check over a snapshot of one
neighbour's domain, pruning the live domain. -/
def fcInner (cons : List KakuroConstraint) (v : Var) (assignment : Assignment)
    (nb : Var) : List Int → Domains → Bool × Domains
  | [], doms => (true, doms)
  | value :: rest, doms =>
    if is_consistent cons v (aInsert assignment nb value) then
      fcInner cons v assignment nb rest doms
    else
      let doms' := removeD doms nb value
      if lookupD doms' nb = [] then (false, doms')
      else fcInner cons v assignment nb rest doms'

/-- Outer loop of KakuroCSP.forward_check over the neighbours. -/
def fcOuter (cons : List KakuroConstraint) (v : Var) (assignment : Assignment) :
    List Var → Domains → Bool × Domains
  | [], doms => (true, doms)
  | nb :: rest, doms =>
    match fcInner cons v assignment nb (lookupD doms nb) doms with
    | (true, doms') => fcOuter cons v assignment rest doms'
    | (false, doms') => (false, doms')

/-- Embeds KakuroCSP.forward_check, gated on the fc flag. -/
def forward_check (ctx : Ctx) (v : Var) (unassigned : List Var)
    (assignment : Assignment) (doms : Domains) : Bool × Domains :=
  if ctx.options.fc then
    fcOuter ctx.constraints v assignment (get_neighbours ctx.constraints v unassigned) doms
  else (true, doms)

/-- Embeds KakuroCSP.get_arcs.  The Python set comprehension enumerates,
for each variable of the dict in insertion order, each of its constraints,
and each ordered pair (v1, v2) of participants with v1 distinct from v2 and
v2 unassigned.  Set deduplication is modelled by keeping first occurrences
(the claims settled here do not depend on the arc order). -/
def get_arcs (variableList : List Var) (cons : List KakuroConstraint)
    (unassigned : List Var) : List (Var × Var) :=
  (variableList.flatMap (fun v =>
    (constraintsOf cons v).flatMap (fun c =>
      c.vars.flatMap (fun v1 =>
        (c.vars.filter (fun v2 => v1 ≠ v2 ∧ v2 ∈ unassigned)).map (fun v2 => (v1, v2)))))).eraseDups

/-- The keep test of KakuroCSP.revise: candidate vi for xi survives when
some constraint shared by xi and xj accepts, for some vj in the given
domain of xj, the assignment extended with xi = vi and xj = vj. -/
def keepPred (cons : List KakuroConstraint) (xi xj : Var) (assignment : Assignment)
    (domXj : List Int) (vi : Int) : Bool :=
  ((constraintsOf cons xi).filter (fun c => xj ∈ c.vars)).any (fun c =>
    domXj.any (fun vj => c.is_satisfied (aInsert (aInsert assignment xi vi) xj vj)))

/-- The loop body of KakuroCSP.revise over a snapshot of domain(xi):
a candidate vi is kept when keepPred accepts it against the live domain of
xj; otherwise vi is removed from the live domain of xi. -/
def reviseGo (cons : List KakuroConstraint) (xi xj : Var) (assignment : Assignment) :
    List Int → Bool × Domains → Bool × Domains
  | [], acc => acc
  | vi :: rest, (rev, doms) =>
    if keepPred cons xi xj assignment (lookupD doms xj) vi then
      reviseGo cons xi xj assignment rest (rev, doms)
    else reviseGo cons xi xj assignment rest (true, removeD doms xi vi)

/-- Embeds KakuroCSP.revise: returns the revised flag and the updated
domains dict. -/
def revise (cons : List KakuroConstraint) (xi xj : Var) (assignment : Assignment)
    (doms : Domains) : Bool × Domains :=
  reviseGo cons xi xj assignment (lookupD doms xi) (false, doms)

/-- The arcs that AC-3 re-enqueues after a successful revision of xi:
(xk, xi) for every participant xk other than xj of a constraint of xi. -/
def newArcs (cons : List KakuroConstraint) (xi xj : Var) : List (Var × Var) :=
  (constraintsOf cons xi).flatMap (fun c =>
    (c.vars.filter (fun xk => xk ≠ xj)).map (fun xk => (xk, xi)))

/-- One pass of the AC-3 worklist loop: pop arcs until the first successful
revision.  inl is a final answer (worklist exhausted, or a domain emptied);
inr is the remaining worklist with the re-enqueued arcs and the updated
domains, to be continued. -/
def acPass (cons : List KakuroConstraint) (assignment : Assignment) :
    List (Var × Var) → Domains → (Bool × Domains) ⊕ (List (Var × Var) × Domains)
  | [], doms => Sum.inl (true, doms)
  | (xi, xj) :: queue, doms =>
    match revise cons xi xj assignment doms with
    | (true, doms') =>
      if lookupD doms' xi = [] then Sum.inl (false, doms')
      else Sum.inr (queue ++ newArcs cons xi xj, doms')
    | (false, doms') => acPass cons assignment queue doms'

/-- Total number of candidate values over all entries of the domains dict;
each successful revision strictly decreases it, which bounds the number of
acPass rounds of the AC-3 loop. -/
def sizeD (doms : Domains) : Nat :=
  (doms.map (fun p => p.2.length)).sum

/-- The AC-3 worklist loop, budgeted by the number of remaining successful
revisions (at most sizeD of the current domains, so the budget below never
runs out; see acRun_budget_switch). -/
def acRun (cons : List KakuroConstraint) (assignment : Assignment) :
    Nat → List (Var × Var) → Domains → Bool × Domains
  | 0, _, doms => (true, doms)
  | budget + 1, queue, doms =>
    match acPass cons assignment queue doms with
    | Sum.inl r => r
    | Sum.inr (queue', doms') => acRun cons assignment budget queue' doms'

/-- The body of KakuroCSP.ac_3 after its flag gate: run the worklist
seeded with all arcs among the given unassigned variables. -/
def ac3Go (variableList : List Var) (cons : List KakuroConstraint)
    (unassigned : List Var) (assignment : Assignment) (doms : Domains) : Bool × Domains :=
  acRun cons assignment (sizeD doms + 1) (get_arcs variableList cons unassigned) doms

/-- Embeds KakuroCSP.ac_3, gated on the ac3 flag. -/
def ac_3 (ctx : Ctx) (unassigned : List Var) (assignment : Assignment)
    (doms : Domains) : Bool × Domains :=
  if ctx.options.ac3 then ac3Go ctx.vars ctx.constraints unassigned assignment doms
  else (true, doms)

/-- Embeds KakuroCSP.mac, gated on the mac flag; its body is a call to
ac_3, which is itself gated on the ac3 flag. -/
def mac (ctx : Ctx) (unassigned : List Var) (assignment : Assignment)
    (doms : Domains) : Bool × Domains :=
  if ctx.options.mac then ac_3 ctx unassigned assignment doms
  else (true, doms)

/-- Embeds KakuroCSP.select_variable on a nonempty unassigned list
(head u, tail us): the first unassigned variable, or with mrv the first
variable of minimal domain size (Python min keeps the earliest minimum). -/
def select_variable (ctx : Ctx) (doms : Domains) (u : Var) (us : List Var) : Var :=
  if ctx.options.mrv then
    us.foldl (fun best v =>
      if (lookupD doms v).length < (lookupD doms best).length then v else best) u
  else u

/-- Embeds KakuroCSP.count_conflicts: the number of pairs of an unassigned
neighbour and a value of its domain that are inconsistent with the tested
assignment of value to variable. -/
def count_conflicts (cons : List KakuroConstraint) (value : Int) (v : Var)
    (assignment : Assignment) (unassigned : List Var) (doms : Domains) : Nat :=
  ((get_neighbours cons v unassigned).map (fun nb =>
    ((lookupD doms nb).filter (fun nv =>
      ¬ is_consistent cons nb (aInsert (aInsert assignment nb nv) v value))).length)).sum

/-- Embeds KakuroCSP.ordered_domain: the domain of the variable, sorted
by conflict count when lcv is set (Python sorted is stable; when lcv is
unset Python iterates the live domain list, modelled here by a snapshot —
the claims settled here do not depend on the difference). -/
def ordered_domain (ctx : Ctx) (v : Var) (assignment : Assignment)
    (unassigned : List Var) (doms : Domains) : List Int :=
  if ctx.options.lcv then
    (lookupD doms v).mergeSort (fun a b =>
      count_conflicts ctx.constraints a v assignment unassigned doms ≤
      count_conflicts ctx.constraints b v assignment unassigned doms)
  else lookupD doms v

/-- The mutable state of a KakuroCSP object: the domains dict and the
step counter. -/
structure KState where
  domains : Domains
  steps : Nat
deriving DecidableEq

/-- Domain restoration at the end of a bt_search loop iteration: when
forward checking or MAC is enabled the domains are reset to the snapshot
taken at the start of the iteration. -/
def restore (ctx : Ctx) (snap : Domains) (s : KState) : KState :=
  if ctx.options.fc || ctx.options.mac then { s with domains := snap } else s

/-- The body of the for loop of KakuroCSP.bt_search over the ordered
domain values; recur is the recursive bt_search call one level deeper.
Each iteration counts a step, snapshots the domains, tentatively assigns,
runs the consistency check then forward checking then MAC (short-circuit),
recurses on success, propagates a found solution immediately, and otherwise
restores the snapshot (when fc or mac is enabled) before the next value. -/
def btLoop (ctx : Ctx) (recur : Assignment → KState → Option Assignment × KState)
    (assignment : Assignment) (unassigned : List Var) (v : Var) :
    List Int → KState → Option Assignment × KState
  | [], s => (none, s)
  | value :: rest, s =>
    let s1 : KState := { s with steps := s.steps + 1 }
    let snap := s1.domains
    let la := aInsert assignment v value
    if is_consistent ctx.constraints v la then
      match forward_check ctx v unassigned la s1.domains with
      | (true, d2) =>
        match mac ctx unassigned la d2 with
        | (true, d3) =>
          match recur la { s1 with domains := d3 } with
          | (some r, s4) => (some r, s4)
          | (none, s4) => btLoop ctx recur assignment unassigned v rest (restore ctx snap s4)
        | (false, d3) => btLoop ctx recur assignment unassigned v rest (restore ctx snap { s1 with domains := d3 })
      | (false, d2) => btLoop ctx recur assignment unassigned v rest (restore ctx snap { s1 with domains := d2 })
    else btLoop ctx recur assignment unassigned v rest (restore ctx snap s1)

/-- Embeds KakuroCSP.bt_search, with an explicit recursion-depth budget
(each level consumes one unit; a budget exceeding the number of unassigned
variables never runs out, see btFuel_eq_of_lt).  On the empty-unassigned
path with an incomplete assignment Python would raise; that path is
unreachable when the variable list is duplicate-free. -/
def btFuel (ctx : Ctx) : Nat → KState → Assignment → Option Assignment × KState
  | 0, s, _ => (none, s)
  | g + 1, s, assignment =>
    if assignment.length = ctx.vars.length then (some assignment, s)
    else
      match ctx.vars.filter (fun v => ¬ aHasKey assignment v) with
      | [] => (none, s)
      | u :: us =>
        let v := select_variable ctx s.domains u us
        let values := ordered_domain ctx v assignment (u :: us) s.domains
        btLoop ctx (fun a' s' => btFuel ctx g s' a') assignment (u :: us) v values s

/-- The solve entry point bt_search() with the default empty assignment;
a depth budget of one more than the variable count always suffices. -/
def solve (ctx : Ctx) (s : KState) : Option Assignment × KState :=
  btFuel ctx (ctx.vars.length + 1) s []

/-- Embeds KakuroCSP.__init__ for a full options record: build the initial
domains, run node consistency (its Boolean result is discarded), then the
initial AC-3 pass over all variables with the empty assignment.  none
models an exception escaping the constructor. -/
def mkCSP (variableList : List Var) (cons : List KakuroConstraint)
    (o : Options) : Option KState :=
  let ctx : Ctx := ⟨variableList, cons, o⟩
  let d0 : Domains := variableList.map (fun v => (v, digits))
  match node_consistency ctx d0 with
  | none => none
  | some (_, d1) =>
    let r2 := ac_3 ctx variableList [] d1
    some ⟨r2.2, 0⟩

/-- Embeds KakuroCSP.__init__ for an options dict that may be missing
keys: node_consistency reads options of key nc first, then the loop runs,
then ac_3 reads options of key ac3; a missing key raises KeyError (none).
The fc, mac, mrv and lcv keys are not read during construction. -/
def mkCSPPart (variableList : List Var) (cons : List KakuroConstraint)
    (po : OptionsPart) : Option KState :=
  let d0 : Domains := variableList.map (fun v => (v, digits))
  match po.nc with
  | none => none
  | some ncFlag =>
    match (if ncFlag then ncLoop cons variableList d0 else some (true, d0)) with
    | none => none
    | some (_, d1) =>
      match po.ac3 with
      | none => none
      | some acFlag =>
        let r2 := if acFlag then ac3Go variableList cons variableList [] d1 else (true, d1)
        some ⟨r2.2, 0⟩

/-- The node-consistency pruning bound of a variable, minSum - minVars + 1
over the constraints touching it (0 when it touches none, in which case the
source raises instead). -/
def boundOf (cons : List KakuroConstraint) (v : Var) : Int :=
  match constraintsOf cons v with
  | [] => 0
  | c :: cs => minSum c cs - minVars c cs + 1

/-- Concrete cell (1, 1) used by the concrete instances below. -/
def vA : Var := (1, 1)

/-- Concrete cell (1, 2) used by the concrete instances below. -/
def vB : Var := (1, 2)

/-- The all-false options record. -/
def oFF : Options := ⟨false, false, false, false, false, false⟩


end KakuroSpec

namespace KakuroSpec

/-! ## Helper lemmas -/

/-- Splitting the node-consistency loop over an appended variable list. -/
theorem ncLoop_append (cons : List KakuroConstraint) (xs ys : List Var) (doms : Domains) :
    ncLoop cons (xs ++ ys) doms =
      match ncLoop cons xs doms with
      | none => none
      | some (true, d) => ncLoop cons ys d
      | some (false, d) => some (false, d) := by
  induction xs generalizing doms with
  | nil => simp [ncLoop]
  | cons v rest ih =>
    simp only [List.cons_append, ncLoop]
    cases h : constraintsOf cons v with
    | nil => simp
    | cons c cs =>
      by_cases he : (lookupD doms v).filter
          (fun x => decide (x ≤ minSum c cs - minVars c cs + 1)) = []
      · simp [he]
      · simp [he, ih]

/-- Reading back after a dict write. -/
theorem lookupD_setD (doms : Domains) (v : Var) (d : List Int) (w : Var) :
    lookupD (setD doms v d) w = if w = v then d else lookupD doms w := by
  induction doms with
  | nil =>
    by_cases h : w = v
    · subst h; simp [setD, lookupD]
    · have h' : v ≠ w := fun hh => h hh.symm
      simp [setD, lookupD, h, h']
  | cons p t ih =>
    obtain ⟨k, e⟩ := p
    by_cases hk : k = v
    · subst hk
      by_cases hw : k = w
      · subst hw; simp [setD, lookupD]
      · have hw' : w ≠ k := fun hh => hw hh.symm
        simp [setD, lookupD, hw, hw']
    · by_cases hw : k = w
      · subst hw
        have hwv : k ≠ v := hk
        have hwv' : ¬ (k = v) := hk
        simp [setD, lookupD, hk, hwv']
      · simp [setD, lookupD, hk, hw, ih]

/-- Reading back after a removal: only the first entry of v changes. -/
theorem lookupD_removeD (doms : Domains) (v : Var) (x : Int) (w : Var) :
    lookupD (removeD doms v x) w = if w = v then (lookupD doms v).erase x
      else lookupD doms w := by
  induction doms with
  | nil =>
    by_cases h : w = v
    · subst h; simp [removeD, lookupD]
    · simp [removeD, lookupD, h]
  | cons p t ih =>
    obtain ⟨k, e⟩ := p
    by_cases hk : k = v
    · subst hk
      by_cases hw : k = w
      · subst hw; simp [removeD, lookupD]
      · have hw' : w ≠ k := fun hh => hw hh.symm
        simp [removeD, lookupD, hw, hw']
    · by_cases hw : k = w
      · subst hw
        have hwv' : ¬ (k = v) := hk
        simp [removeD, lookupD, hk, hwv']
      · simp [removeD, lookupD, hk, hw, ih]

/-- Variables outside the processed list keep their domains across the
node-consistency loop. -/
theorem ncLoop_frame (cons : List KakuroConstraint) (vs : List Var) :
    ∀ (doms : Domains) (b : Bool) (d : Domains), ncLoop cons vs doms = some (b, d) →
      ∀ w ∉ vs, lookupD d w = lookupD doms w := by
  induction vs with
  | nil =>
    intro doms b d h w _
    simp only [ncLoop, Option.some.injEq, Prod.mk.injEq] at h
    rw [← h.2]
  | cons v rest ih =>
    intro doms b d h w hw
    have hwv : w ≠ v := fun he => hw (he ▸ List.mem_cons_self v rest)
    have hwr : w ∉ rest := fun he => hw (List.mem_cons_of_mem v he)
    simp only [ncLoop] at h
    cases hc : constraintsOf cons v with
    | nil => rw [hc] at h; exact absurd h (by simp)
    | cons c cs =>
      rw [hc] at h
      simp only [] at h
      by_cases he : (lookupD doms v).filter
          (fun x => decide (x ≤ minSum c cs - minVars c cs + 1)) = []
      · rw [if_pos he] at h
        have hd2 := congrArg Prod.snd (Option.some.inj h)
        simp only [] at hd2
        rw [← hd2, lookupD_setD, if_neg hwv]
      · rw [if_neg he] at h
        have := ih _ b d h w hwr
        rw [this, lookupD_setD, if_neg hwv]

/-- Behaviour of the node-consistency loop when every listed variable
touches a constraint and the list is duplicate-free: it cannot raise; on a
true result every variable's domain is exactly its previous domain
filtered by the bound; a false result occurs exactly when some variable's
filtered domain is empty. -/
theorem ncLoop_spec (cons : List KakuroConstraint) (vs : List Var) :
    ∀ (doms : Domains), vs.Nodup → (∀ v ∈ vs, constraintsOf cons v ≠ []) →
      (ncLoop cons vs doms ≠ none) ∧
      (∀ d, ncLoop cons vs doms = some (true, d) → ∀ v ∈ vs,
        lookupD d v = (lookupD doms v).filter (fun x => x ≤ boundOf cons v)) ∧
      ((∃ d, ncLoop cons vs doms = some (false, d)) ↔
        ∃ v ∈ vs, (lookupD doms v).filter (fun x => x ≤ boundOf cons v) = []) := by
  induction vs with
  | nil =>
    intro doms _ _
    refine ⟨by simp [ncLoop], by simp, ?_⟩
    simp [ncLoop]
  | cons v rest ih =>
    intro doms hnd hp
    obtain ⟨c, cs, hc⟩ : ∃ c cs, constraintsOf cons v = c :: cs := by
      cases hcv : constraintsOf cons v with
      | nil => exact absurd hcv (hp v (List.mem_cons_self v rest))
      | cons c cs => exact ⟨c, cs, rfl⟩
    have hbound : boundOf cons v = minSum c cs - minVars c cs + 1 := by
      simp [boundOf, hc]
    have hvrest : v ∉ rest := (List.nodup_cons.mp hnd).1
    have hndr : rest.Nodup := (List.nodup_cons.mp hnd).2
    have hpr : ∀ u ∈ rest, constraintsOf cons u ≠ [] :=
      fun u hu => hp u (List.mem_cons_of_mem v hu)
    simp only [ncLoop, hc]
    by_cases he : (lookupD doms v).filter
        (fun x => decide (x ≤ minSum c cs - minVars c cs + 1)) = []
    · rw [if_pos he]
      refine ⟨by simp, by simp, ?_⟩
      constructor
      · intro _
        exact ⟨v, List.mem_cons_self v rest, by rw [hbound]; exact he⟩
      · intro _
        exact ⟨_, rfl⟩
    · rw [if_neg he]
      set doms' := setD doms v ((lookupD doms v).filter
        (fun x => decide (x ≤ minSum c cs - minVars c cs + 1))) with hdoms'
      have hlook : ∀ u ∈ rest, lookupD doms' u = lookupD doms u := by
        intro u hu
        have : u ≠ v := fun heq => hvrest (heq ▸ hu)
        rw [hdoms', lookupD_setD, if_neg this]
      obtain ⟨ihn, iht, ihf⟩ := ih doms' hndr hpr
      refine ⟨ihn, ?_, ?_⟩
      · intro d hd u hu
        rcases List.mem_cons.mp hu with hu | hu
        · subst hu
          have hframe := ncLoop_frame cons rest doms' true d hd u hvrest
          rw [hframe, hdoms', lookupD_setD, if_pos rfl, hbound]
        · rw [iht d hd u hu, hlook u hu]
      · rw [ihf]
        constructor
        · rintro ⟨u, hu, hfu⟩
          exact ⟨u, List.mem_cons_of_mem v hu, by rw [← hlook u hu]; exact hfu⟩
        · rintro ⟨u, hu, hfu⟩
          rcases List.mem_cons.mp hu with hu' | hu'
          · subst hu'
            rw [hbound] at hfu
            exact absurd hfu he
          · exact ⟨u, hu', by rw [hlook u hu']; exact hfu⟩

/-! ## Claim theorems (first batch) -/

/-- Claim C2: the spec requires the satisfaction test to return false
whenever two assigned participants share a value, with the all-different
check performed unconditionally.  The source's is_satisfied performs no
all-different check at all: on a two-cell constraint with target 4 and
both cells assigned the shared value 2 it returns true. -/
theorem is_satisfied_accepts_duplicate_values :
    KakuroConstraint.is_satisfied ⟨[vA, vB], 4⟩ [(vA, 2), (vB, 2)] = true ∧
    aLookup [(vA, 2), (vB, 2)] vA = aLookup [(vA, 2), (vB, 2)] vB := by
  decide

/-- Claim C1: the spec's soundness property requires every returned
solution to assign pairwise-distinct values within each constraint.
Because is_satisfied never checks distinctness, the search returns the
assignment mapping both cells of a two-cell sum-2 constraint to 1. -/
theorem bt_search_returns_duplicate_solution :
    mkCSP [vA, vB] [⟨[vA, vB], 2⟩] oFF = some ⟨[(vA, digits), (vB, digits)], 0⟩ ∧
    (solve ⟨[vA, vB], [⟨[vA, vB], 2⟩], oFF⟩ ⟨[(vA, digits), (vB, digits)], 0⟩).1 =
      some [(vA, 1), (vB, 1)] ∧
    aLookup [(vA, 1), (vB, 1)] vA = aLookup [(vA, 1), (vB, 1)] vB := by
  decide

/-- Claim C3, counterexample: with the mac flag set but the ac3 flag
unset, mac performs no propagation at all, while a run of the full AC-3
body on the same arguments prunes both domains; so mac is not equivalent
to re-running full AC-3 whenever its own flag is set. -/
theorem mac_differs_from_full_ac3_when_ac3_unset :
    (Ctx.mk [vA, vB] [⟨[vA, vB], 3⟩] ⟨false, false, false, true, false, false⟩).options.mac
      = true ∧
    mac ⟨[vA, vB], [⟨[vA, vB], 3⟩], ⟨false, false, false, true, false, false⟩⟩
        [vA, vB] [(vA, 1)] [(vA, digits), (vB, digits)] ≠
      ac3Go [vA, vB] [⟨[vA, vB], 3⟩] [vA, vB] [(vA, 1)] [(vA, digits), (vB, digits)] := by
  decide

/-- Claim C3, amended: with the mac flag set, mac re-runs the full AC-3
body if and only if the separate ac3 flag is also set; when the ac3 flag
is unset, mac reports success without touching any domain. -/
theorem mac_runs_ac3_iff_both_flags (ctx : Ctx) (unassigned : List Var)
    (assignment : Assignment) (doms : Domains) (h : ctx.options.mac = true) :
    mac ctx unassigned assignment doms =
      if ctx.options.ac3 then ac3Go ctx.vars ctx.constraints unassigned assignment doms
      else (true, doms) := by
  simp [mac, ac_3, h]

/-- Witness for mac_runs_ac3_iff_both_flags at a concrete engine. -/
theorem mac_runs_ac3_iff_both_flags_witness :
    (Ctx.mk [vA] [⟨[vA], 5⟩] ⟨false, false, false, true, false, false⟩).options.mac = true ∧
    mac ⟨[vA], [⟨[vA], 5⟩], ⟨false, false, false, true, false, false⟩⟩ [vA] [] [(vA, digits)] =
      (if (Ctx.mk [vA] [⟨[vA], 5⟩] ⟨false, false, false, true, false, false⟩).options.ac3
       then ac3Go [vA] [⟨[vA], 5⟩] [vA] [] [(vA, digits)]
       else (true, [(vA, digits)])) :=
  ⟨by decide, mac_runs_ac3_iff_both_flags _ [vA] [] [(vA, digits)] (by decide)⟩

/-- Claim C6, counterexample: an options dict missing only the lcv key is
not rejected at construction time — the constructor reads only the nc and
ac3 keys, so construction completes normally. -/
theorem missing_lcv_flag_not_rejected_at_construction :
    (OptionsPart.mk (some false) (some false) (some false) (some false) (some false) none).lcv
      = none ∧
    (mkCSPPart [vA] [⟨[vA], 5⟩]
      ⟨some false, some false, some false, some false, some false, none⟩).isSome = true := by
  decide

/-- Claim C6, amended: construction fails (KeyError) exactly when the nc
or ac3 key is missing; when both are present it behaves as construction
with any full options record carrying those two values — the fc, mac, mrv
and lcv keys are never read during construction, so their absence cannot
be detected there. -/
theorem construction_reads_only_nc_and_ac3 (variableList : List Var)
    (cons : List KakuroConstraint) (po : OptionsPart) :
    (po.nc = none ∨ po.ac3 = none → mkCSPPart variableList cons po = none) ∧
    (∀ n b (o : Options), po.nc = some n → po.ac3 = some b → o.nc = n → o.ac3 = b →
      mkCSPPart variableList cons po = mkCSP variableList cons o) := by
  constructor
  · intro h
    cases h with
    | inl h => simp [mkCSPPart, h]
    | inr h =>
      cases hnc : po.nc with
      | none => simp [mkCSPPart, hnc]
      | some ncFlag =>
        simp only [mkCSPPart, hnc, h]
        cases (if ncFlag then ncLoop cons variableList
            (variableList.map (fun v => (v, digits))) else some (true,
            variableList.map (fun v => (v, digits)))) with
        | none => rfl
        | some p => rfl
  · intro n b o hnc hac hn hb
    simp only [mkCSPPart, hnc, hac, mkCSP, node_consistency, ac_3, hn, hb]

/-- Witness for construction_reads_only_nc_and_ac3: with both nc and ac3
present (and the other four missing), construction agrees with the
full-record constructor. -/
theorem construction_reads_only_nc_and_ac3_witness :
    mkCSPPart [vA] [⟨[vA], 5⟩] ⟨some true, some true, none, none, none, none⟩ =
      mkCSP [vA] [⟨[vA], 5⟩] ⟨true, true, false, false, false, false⟩ :=
  (construction_reads_only_nc_and_ac3 [vA] [⟨[vA], 5⟩]
    ⟨some true, some true, none, none, none, none⟩).2 true true
    ⟨true, true, false, false, false, false⟩ rfl rfl rfl rfl

/-- Claim C8: the embedding of the solver is a pure function of the
construction input, so two solve calls on engines built from the same
variable list, constraint list and flags return the same assignment (or
both none) and the same final step counter. -/
theorem solve_deterministic (variableList : List Var) (cons : List KakuroConstraint)
    (o : Options) (s1 s2 : KState) (h1 : mkCSP variableList cons o = some s1)
    (h2 : mkCSP variableList cons o = some s2) :
    solve ⟨variableList, cons, o⟩ s1 = solve ⟨variableList, cons, o⟩ s2 ∧
    (solve ⟨variableList, cons, o⟩ s1).2.steps = (solve ⟨variableList, cons, o⟩ s2).2.steps := by
  have hs : s1 = s2 := by
    have := h1.symm.trans h2
    exact Option.some.inj this
  subst hs
  exact ⟨rfl, rfl⟩

/-- Witness for solve_deterministic at a concrete engine. -/
theorem solve_deterministic_witness :
    solve ⟨[vA], [⟨[vA], 5⟩], oFF⟩ ⟨[(vA, digits)], 0⟩ =
      solve ⟨[vA], [⟨[vA], 5⟩], oFF⟩ ⟨[(vA, digits)], 0⟩ ∧
    (solve ⟨[vA], [⟨[vA], 5⟩], oFF⟩ ⟨[(vA, digits)], 0⟩).2.steps =
      (solve ⟨[vA], [⟨[vA], 5⟩], oFF⟩ ⟨[(vA, digits)], 0⟩).2.steps :=
  solve_deterministic [vA] [⟨[vA], 5⟩] oFF ⟨[(vA, digits)], 0⟩ ⟨[(vA, digits)], 0⟩
    (by decide) (by decide)

/-- Claim C9, counterexample: on variables a then b with constraints
(sum 0 over a) and (sum 5 over b), the node-consistency pass empties the
domain of a and returns false at once, leaving the domain of b entirely
unpruned even though the bound of b is 5, so the value 9 greater than the
bound is not removed. -/
theorem node_consistency_early_exit_skips_later_variables :
    ncLoop [⟨[vA], 0⟩, ⟨[vB], 5⟩] [vA, vB] [(vA, digits), (vB, digits)] =
      some (false, [(vA, []), (vB, digits)]) ∧
    boundOf [⟨[vA], 0⟩, ⟨[vB], 5⟩] vB = 5 ∧
    (9 : Int) ∈ lookupD [(vA, []), (vB, digits)] vB := by
  decide

/-- Claim C10, counterexample: with the nc flag set and variable b in no
constraint, construction still completes normally when an earlier
variable's domain empties first — node_consistency returns false before
reaching b, so the ValueError is never raised. -/
theorem construction_completes_despite_unconstrained_variable :
    constraintsOf [⟨[vA], 0⟩] vB = [] ∧
    (Options.mk true false false false false false).nc = true ∧
    mkCSP [vA, vB] [⟨[vA], 0⟩] ⟨true, false, false, false, false, false⟩ =
      some ⟨[(vA, []), (vB, digits)], 0⟩ := by
  decide

/-- Claim C10, amended: with the nc flag set, construction raises (fails
to complete) when some variable occurs in no constraint, provided the
node-consistency loop actually reaches that variable — that is, the loop
over the variables preceding it completes without finding an empty
domain. -/
theorem construction_raises_when_loop_reaches_unconstrained_variable
    (cons : List KakuroConstraint) (o : Options) (pre post : List Var) (v : Var)
    (d : Domains) (hnc : o.nc = true) (hv : constraintsOf cons v = [])
    (hpre : ncLoop cons pre ((pre ++ v :: post).map (fun w => (w, digits))) = some (true, d)) :
    mkCSP (pre ++ v :: post) cons o = none := by
  have hloop : ncLoop cons (pre ++ v :: post) ((pre ++ v :: post).map (fun w => (w, digits)))
      = none := by
    rw [ncLoop_append, hpre]
    simp [ncLoop, hv]
  rw [List.map_append, List.map_cons] at hloop
  simp [mkCSP, node_consistency, hnc, hloop]

/-- Witness for construction_raises_when_loop_reaches_unconstrained_variable. -/
theorem construction_raises_unconstrained_witness :
    mkCSP ([vA] ++ vB :: []) [⟨[vA], 5⟩] ⟨true, false, false, false, false, false⟩ = none :=
  construction_raises_when_loop_reaches_unconstrained_variable [⟨[vA], 5⟩]
    ⟨true, false, false, false, false, false⟩ [vA] [] vB
    [(vA, [1, 2, 3, 4, 5]), (vB, digits)] rfl (by decide) (by decide)


/-- Claim C9, amended: with the nc flag set, on a duplicate-free variable
list in which every variable touches a constraint, node_consistency never
raises; when it returns true every variable's domain is exactly its old
domain filtered by the bound minSum - minVars + 1; and it returns false
exactly when some variable's filtered domain is empty (in which case the
loop stops there, see the counterexample for the unpruned tail). -/
theorem node_consistency_spec (ctx : Ctx) (doms : Domains)
    (hnc : ctx.options.nc = true) (hnd : ctx.vars.Nodup)
    (hp : ∀ v ∈ ctx.vars, constraintsOf ctx.constraints v ≠ []) :
    (node_consistency ctx doms ≠ none) ∧
    (∀ d, node_consistency ctx doms = some (true, d) → ∀ v ∈ ctx.vars,
      lookupD d v = (lookupD doms v).filter
        (fun x => x ≤ boundOf ctx.constraints v)) ∧
    ((∃ d, node_consistency ctx doms = some (false, d)) ↔
      ∃ v ∈ ctx.vars, (lookupD doms v).filter
        (fun x => x ≤ boundOf ctx.constraints v) = []) := by
  have h := ncLoop_spec ctx.constraints ctx.vars doms hnd hp
  simpa [node_consistency, hnc] using h

/-- Witness for node_consistency_spec at a concrete engine with two
one-cell constraints. -/
theorem node_consistency_spec_witness :
    (node_consistency ⟨[vA, vB], [⟨[vA], 5⟩, ⟨[vB], 7⟩],
        ⟨true, false, false, false, false, false⟩⟩ [(vA, digits), (vB, digits)] ≠ none) ∧
    (∀ d, node_consistency ⟨[vA, vB], [⟨[vA], 5⟩, ⟨[vB], 7⟩],
        ⟨true, false, false, false, false, false⟩⟩ [(vA, digits), (vB, digits)] =
        some (true, d) → ∀ v ∈ [vA, vB],
      lookupD d v = (lookupD [(vA, digits), (vB, digits)] v).filter
        (fun x => x ≤ boundOf [⟨[vA], 5⟩, ⟨[vB], 7⟩] v)) ∧
    ((∃ d, node_consistency ⟨[vA, vB], [⟨[vA], 5⟩, ⟨[vB], 7⟩],
        ⟨true, false, false, false, false, false⟩⟩ [(vA, digits), (vB, digits)] =
        some (false, d)) ↔
      ∃ v ∈ [vA, vB], (lookupD [(vA, digits), (vB, digits)] v).filter
        (fun x => x ≤ boundOf [⟨[vA], 5⟩, ⟨[vB], 7⟩] v) = []) :=
  node_consistency_spec ⟨[vA, vB], [⟨[vA], 5⟩, ⟨[vB], 7⟩],
    ⟨true, false, false, false, false, false⟩⟩ [(vA, digits), (vB, digits)]
    (by decide) (by decide) (by decide)

/-- The revise loop acts on the entry of xi alone, and its result on that
entry is the snapshot filtered by the keep test (evaluated against the
unchanged domain of xj), provided xi and xj are distinct and the domain of
xi has no duplicate values. -/
theorem reviseGo_spec (cons : List KakuroConstraint) (xi xj : Var) (a : Assignment)
    (hne : xi ≠ xj) :
    ∀ (snap pre : List Int) (rev : Bool) (doms : Domains),
      lookupD doms xi = pre ++ snap → (pre ++ snap).Nodup →
      lookupD (reviseGo cons xi xj a snap (rev, doms)).2 xi =
        pre ++ snap.filter (keepPred cons xi xj a (lookupD doms xj)) ∧
      (∀ w, w ≠ xi → lookupD (reviseGo cons xi xj a snap (rev, doms)).2 w =
        lookupD doms w) := by
  intro snap
  induction snap with
  | nil =>
    intro pre rev doms hl _
    refine ⟨by simpa [reviseGo] using hl, fun w _ => by simp [reviseGo]⟩
  | cons vi rest ih =>
    intro pre rev doms hl hnd
    by_cases hk : keepPred cons xi xj a (lookupD doms xj) vi = true
    · have hstep : reviseGo cons xi xj a (vi :: rest) (rev, doms) =
          reviseGo cons xi xj a rest (rev, doms) := by
        simp [reviseGo, hk]
      have hl' : lookupD doms xi = (pre ++ [vi]) ++ rest := by
        rw [hl, List.append_assoc]; rfl
      have hnd' : ((pre ++ [vi]) ++ rest).Nodup := by
        rw [List.append_assoc]; exact hnd
      obtain ⟨h1, h2⟩ := ih (pre ++ [vi]) rev doms hl' hnd'
      rw [hstep]
      refine ⟨?_, h2⟩
      rw [h1, List.filter_cons_of_pos hk, List.append_assoc]
      rfl
    · have hkf : keepPred cons xi xj a (lookupD doms xj) vi = false :=
        Bool.not_eq_true _ ▸ (by simpa using hk)
      have hstep : reviseGo cons xi xj a (vi :: rest) (rev, doms) =
          reviseGo cons xi xj a rest (true, removeD doms xi vi) := by
        simp [reviseGo, hkf]
      have hvipre : vi ∉ pre := by
        have hdisj := (List.nodup_append.mp hnd).2.2
        intro hmem
        exact hdisj hmem (List.mem_cons_self vi rest)
      have hlrm : lookupD (removeD doms xi vi) xi = pre ++ rest := by
        rw [lookupD_removeD, if_pos rfl, hl, List.erase_append_right _ hvipre,
          List.erase_cons_head]
      have hxj : lookupD (removeD doms xi vi) xj = lookupD doms xj := by
        rw [lookupD_removeD, if_neg (fun hh => hne hh.symm)]
      have hndr : (pre ++ rest).Nodup := by
        refine List.Nodup.sublist ?_ hnd
        exact List.Sublist.append_left (List.sublist_cons_self vi rest) pre
      obtain ⟨h1, h2⟩ := ih pre true (removeD doms xi vi) hlrm hndr
      rw [hstep]
      constructor
      · rw [h1, hxj, List.filter_cons_of_neg (by simp [hkf])]
      · intro w hw
        rw [h2 w hw, lookupD_removeD, if_neg hw]

/-- Claim C4, amended: revise removes a candidate vi from domain(Xi)
exactly when no pair of a constraint shared by Xi and Xj and a value vj in
domain(Xj) makes that one constraint accept the extension with Xi = vi and
Xj = vj — the witness vj only has to satisfy some shared constraint, not
all of them simultaneously.  Stated for distinct Xi, Xj and duplicate-free
domain(Xi): the resulting domain of Xi is the old one filtered by the
keep test, and no other entry changes. -/
theorem revise_keeps_iff_some_shared_constraint_accepts
    (cons : List KakuroConstraint) (xi xj : Var) (a : Assignment) (doms : Domains)
    (hne : xi ≠ xj) (hnd : (lookupD doms xi).Nodup) :
    lookupD (revise cons xi xj a doms).2 xi =
      (lookupD doms xi).filter (keepPred cons xi xj a (lookupD doms xj)) ∧
    (∀ w, w ≠ xi → lookupD (revise cons xi xj a doms).2 w = lookupD doms w) := by
  have h := reviseGo_spec cons xi xj a hne (lookupD doms xi) [] false doms rfl
    (by simpa using hnd)
  simpa [revise] using h

/-- Witness for revise_keeps_iff_some_shared_constraint_accepts at the
two-constraint engine of the counterexample. -/
theorem revise_keeps_iff_witness :
    lookupD (revise [⟨[vA, vB], 3⟩, ⟨[vA, vB], 4⟩] vA vB []
        [(vA, digits), (vB, digits)]).2 vA =
      (lookupD [(vA, digits), (vB, digits)] vA).filter
        (keepPred [⟨[vA, vB], 3⟩, ⟨[vA, vB], 4⟩] vA vB []
          (lookupD [(vA, digits), (vB, digits)] vB)) ∧
    (∀ w, w ≠ vA → lookupD (revise [⟨[vA, vB], 3⟩, ⟨[vA, vB], 4⟩] vA vB []
        [(vA, digits), (vB, digits)]).2 w = lookupD [(vA, digits), (vB, digits)] w) :=
  revise_keeps_iff_some_shared_constraint_accepts [⟨[vA, vB], 3⟩, ⟨[vA, vB], 4⟩]
    vA vB [] [(vA, digits), (vB, digits)] (by decide) (by decide)

/-- Claim C4, counterexample: on an engine whose two constraints both
cover exactly cells a and b (targets 3 and 4), revise(a, b) keeps the
candidate 1 for a although no single value vj for b makes every shared
constraint accept the pair simultaneously (the two targets differ, so no
vj can); the claim would require 1 to be discarded. -/
theorem revise_keeps_value_without_simultaneous_support :
    (1 : Int) ∈ lookupD (revise [⟨[vA, vB], 3⟩, ⟨[vA, vB], 4⟩] vA vB []
        [(vA, digits), (vB, digits)]).2 vA ∧
    (∀ vj ∈ lookupD [(vA, digits), (vB, digits)] vB,
      ¬ (((constraintsOf [⟨[vA, vB], 3⟩, ⟨[vA, vB], 4⟩] vA).filter
          (fun c => vB ∈ c.vars)).all (fun c =>
            c.is_satisfied (aInsert (aInsert [] vA 1) vB vj)) = true)) := by
  decide




/-- The search loop returns no solution when every candidate value is
inconsistent, whatever the recursion argument does (the recursive call is
never reached). -/
theorem btLoop_none_of_all_inconsistent (ctx : Ctx)
    (recur : Assignment → KState → Option Assignment × KState)
    (a : Assignment) (unassigned : List Var) (v : Var) :
    ∀ (values : List Int) (s : KState),
      (∀ x ∈ values, is_consistent ctx.constraints v (aInsert a v x) = false) →
      (btLoop ctx recur a unassigned v values s).1 = none := by
  intro values
  induction values with
  | nil => intro s _; rfl
  | cons x rest ih =>
    intro s hx
    have hc := hx x (List.mem_cons_self x rest)
    simp only [btLoop, hc, Bool.false_eq_true, if_false]
    exact ih _ (fun y hy => hx y (List.mem_cons_of_mem x hy))

/-- Variable selection from a single-element unassigned list picks that
element, with or without MRV. -/
theorem select_variable_single (ctx : Ctx) (d : Domains) (u : Var) :
    select_variable ctx d u [] = u := by
  cases hm : ctx.options.mrv <;> simp [select_variable, hm]

/-- Every value produced by ordered_domain comes from the domain of the
variable, with or without LCV. -/
theorem ordered_domain_subset (ctx : Ctx) (v : Var) (a : Assignment)
    (unassigned : List Var) (doms : Domains) :
    ∀ x ∈ ordered_domain ctx v a unassigned doms, x ∈ lookupD doms v := by
  intro x hx
  by_cases hl : ctx.options.lcv
  · rw [ordered_domain, if_pos hl] at hx
    exact List.mem_mergeSort.mp hx
  · rwa [ordered_domain, if_neg hl] at hx

/-- Claim C7: on a puzzle with a single one-cell constraint whose target
is unreachable in the digit range, construction completes without raising
for every flag setting, and the solve call returns none for every depth
budget (in particular the sufficient one used by solve). -/
theorem solve_single_cell_unreachable_target (o : Options) (t : Int)
    (h : t < 1 ∨ 9 < t) :
    ∃ s : KState, mkCSP [vA] [⟨[vA], t⟩] o = some s ∧
      ∀ g : ℕ, (btFuel ⟨[vA], [⟨[vA], t⟩], o⟩ g s []).1 = none := by
  have hcof : constraintsOf [⟨[vA], t⟩] vA = [⟨[vA], t⟩] := by
    simp [constraintsOf, vA]
  have hcons : ∀ x : Int, 1 ≤ x → x ≤ 9 →
      is_consistent [⟨[vA], t⟩] vA (aInsert [] vA x) = false := by
    intro x h1 h9
    have hxt : ¬ ((x : Int) = t) := by omega
    have hred : is_consistent [⟨[vA], t⟩] vA (aInsert [] vA x) = decide ((x : Int) = t) := by
      rw [is_consistent, hcof]
      simp [KakuroConstraint.is_satisfied, aInsert, aHasKey, aLookup]
    rw [hred, decide_eq_false hxt]
  have harcs : get_arcs [vA] [⟨[vA], t⟩] [vA] = [] := by
    simp [get_arcs, hcof, List.eraseDups, List.eraseDups.loop]
  have hbt : ∀ s : KState, (∀ x ∈ lookupD s.domains vA, (1 : Int) ≤ x ∧ x ≤ 9) →
      ∀ g : ℕ, (btFuel ⟨[vA], [⟨[vA], t⟩], o⟩ g s []).1 = none := by
    intro s hdom g
    cases g with
    | zero => rfl
    | succ g' =>
      have hfil : ([vA].filter (fun v => ¬ aHasKey ([] : Assignment) v)) = [vA] := by
        decide
      simp only [btFuel, List.length_nil, hfil]
      rw [if_neg (by simp [vA])]
      rw [select_variable_single]
      apply btLoop_none_of_all_inconsistent
      intro x hx
      have hx' := ordered_domain_subset _ _ _ _ _ x hx
      exact hcons x (hdom x hx').1 (hdom x hx').2
  have hdigits : ∀ x ∈ digits, (1 : Int) ≤ x ∧ x ≤ 9 := by decide
  obtain ⟨nc, ac3, fc, mc, mrv, lcv⟩ := o
  have hd0 : ([vA].map (fun v => (v, digits))) = [(vA, digits)] := rfl
  cases nc with
  | false =>
    refine ⟨⟨[(vA, digits)], 0⟩, ?_, ?_⟩
    · cases ac3 with
      | false => simp [mkCSP, node_consistency, ac_3]
      | true =>
        simp only [mkCSP, node_consistency, ac_3, hd0]
        simp only [Bool.false_eq_true, if_false, if_true]
        simp [ac3Go, harcs, acRun, acPass]
    · exact fun g => hbt _ (fun x hx => hdigits x (by simpa [lookupD, vA] using hx)) g
  | true =>
    have hmin : minSum ⟨[vA], t⟩ [] - minVars ⟨[vA], t⟩ [] + 1 = t := by
      simp [minSum, minVars, vA]
    cases h with
    | inl hlt =>
      have hnd : (lookupD [(vA, digits)] vA).filter
          (fun x => decide (x ≤ minSum ⟨[vA], t⟩ [] - minVars ⟨[vA], t⟩ [] + 1)) = [] := by
        rw [List.filter_eq_nil_iff]
        intro x hx
        have hb := hdigits x (by simpa [lookupD, vA] using hx)
        rw [hmin]
        simp only [decide_eq_true_eq]
        omega
      have hloop : ncLoop [⟨[vA], t⟩] [vA] [(vA, digits)] =
          some (false, [(vA, [])]) := by
        simp only [ncLoop, hcof, hnd]
        simp [setD, hnd]
      refine ⟨⟨[(vA, [])], 0⟩, ?_, ?_⟩
      · cases ac3 with
        | false => simp [mkCSP, node_consistency, hd0, hloop, ac_3]
        | true =>
          simp only [mkCSP, node_consistency, ac_3, hd0, if_true, hloop]
          simp [ac3Go, harcs, acRun, acPass]
      · exact fun g => hbt _ (fun x hx => absurd hx (by simp [lookupD, vA])) g
    | inr hgt =>
      have hnd : (lookupD [(vA, digits)] vA).filter
          (fun x => decide (x ≤ minSum ⟨[vA], t⟩ [] - minVars ⟨[vA], t⟩ [] + 1)) = digits := by
        have hlk : lookupD [(vA, digits)] vA = digits := by simp [lookupD]
        rw [hlk, List.filter_eq_self]
        intro x hx
        have hb := hdigits x hx
        rw [hmin]
        simp only [decide_eq_true_eq]
        omega
      have hloop : ncLoop [⟨[vA], t⟩] [vA] [(vA, digits)] =
          some (true, [(vA, digits)]) := by
        simp only [ncLoop, hcof, hnd]
        have hne : digits ≠ [] := by decide
        simp [hne, setD, ncLoop]
      refine ⟨⟨[(vA, digits)], 0⟩, ?_, ?_⟩
      · cases ac3 with
        | false => simp [mkCSP, node_consistency, hd0, hloop, ac_3]
        | true =>
          simp only [mkCSP, node_consistency, ac_3, hd0, if_true, hloop]
          simp [ac3Go, harcs, acRun, acPass]
      · exact fun g => hbt _ (fun x hx => hdigits x (by simpa [lookupD, vA] using hx)) g

/-- Witness for solve_single_cell_unreachable_target at target 0 with all
flags disabled. -/
theorem solve_single_cell_unreachable_target_witness :
    ((0 : Int) < 1 ∨ 9 < (0 : Int)) ∧
    ∃ s : KState, mkCSP [vA] [⟨[vA], 0⟩] oFF = some s ∧
      ∀ g : ℕ, (btFuel ⟨[vA], [⟨[vA], 0⟩], oFF⟩ g s []).1 = none :=
  ⟨Or.inl (by decide), solve_single_cell_unreachable_target oFF 0 (Or.inl (by decide))⟩


/-- Reading back after a dict assignment write. -/
theorem aLookup_aInsert (a : Assignment) (v : Var) (x : Int) (w : Var) :
    aLookup (aInsert a v x) w = if w = v then some x else aLookup a w := by
  induction a with
  | nil =>
    by_cases h : w = v
    · subst h; simp [aInsert, aLookup]
    · have h' : v ≠ w := fun hh => h hh.symm
      simp [aInsert, aLookup, h, h']
  | cons p t ih =>
    obtain ⟨k, e⟩ := p
    by_cases hk : k = v
    · subst hk
      by_cases hw : k = w
      · subst hw; simp [aInsert, aLookup]
      · have hw' : w ≠ k := fun hh => hw hh.symm
        simp [aInsert, aLookup, hw, hw']
    · by_cases hw : k = w
      · subst hw
        have hwv' : ¬ (k = v) := hk
        simp [aInsert, aLookup, hk, hwv']
      · simp [aInsert, aLookup, hk, hw, ih]

/-- Key membership after a dict assignment write. -/
theorem aHasKey_aInsert (a : Assignment) (v : Var) (x : Int) (w : Var) :
    aHasKey (aInsert a v x) w = if w = v then true else aHasKey a w := by
  by_cases h : w = v <;> simp [aHasKey, aLookup_aInsert, h]

/-- A key is present exactly when it occurs in the key list. -/
theorem aHasKey_eq_mem_keys (a : Assignment) (v : Var) :
    aHasKey a v = true ↔ v ∈ a.map Prod.fst := by
  induction a with
  | nil => simp [aHasKey, aLookup]
  | cons p t ih =>
    obtain ⟨k, e⟩ := p
    by_cases hk : k = v
    · subst hk; simp [aHasKey, aLookup]
    · have hk' : v ≠ k := fun hh => hk hh.symm
      simp [aHasKey, aLookup, hk, hk', ih] at *
      exact ih

/-- Writing a fresh key appends it, so the size grows by one. -/
theorem aInsert_length_fresh (a : Assignment) (v : Var) (x : Int)
    (h : aHasKey a v = false) : (aInsert a v x).length = a.length + 1 := by
  induction a with
  | nil => rfl
  | cons p t ih =>
    obtain ⟨k, e⟩ := p
    have hk : k ≠ v := by
      intro hh
      subst hh
      simp [aHasKey, aLookup] at h
    simp only [aInsert, if_neg hk, List.length_cons]
    rw [ih (by simpa [aHasKey, aLookup, hk] using h)]

/-- Writing a fresh key appends it to the key list. -/
theorem aInsert_keys_fresh (a : Assignment) (v : Var) (x : Int)
    (h : aHasKey a v = false) :
    (aInsert a v x).map Prod.fst = a.map Prod.fst ++ [v] := by
  induction a with
  | nil => rfl
  | cons p t ih =>
    obtain ⟨k, e⟩ := p
    have hk : k ≠ v := by
      intro hh
      subst hh
      simp [aHasKey, aLookup] at h
    simp only [aInsert, if_neg hk, List.map_cons, List.cons_append]
    rw [ih (by simpa [aHasKey, aLookup, hk] using h)]

/-- The Python min fold used by select_variable picks an element of the
candidate list. -/
theorem select_variable_mem (ctx : Ctx) (d : Domains) (u : Var) (us : List Var) :
    select_variable ctx d u us ∈ u :: us := by
  rw [select_variable]
  by_cases hm : ctx.options.mrv
  · rw [if_pos hm]
    clear hm
    induction us generalizing u with
    | nil => simp
    | cons v rest ih =>
      simp only [List.foldl_cons]
      have hbm : (if (lookupD d v).length < (lookupD d u).length then v else u) = v ∨
          (if (lookupD d v).length < (lookupD d u).length then v else u) = u := by
        by_cases hc : (lookupD d v).length < (lookupD d u).length
        · exact Or.inl (if_pos hc)
        · exact Or.inr (if_neg hc)
      have hmem := ih (if (lookupD d v).length < (lookupD d u).length then v else u)
      rw [List.mem_cons] at hmem
      rcases hmem with h | h
      · rcases hbm with hb | hb
        · rw [h, hb]
          exact List.mem_cons_of_mem u (List.mem_cons_self v rest)
        · rw [h, hb]
          exact List.mem_cons_self u (v :: rest)
      · exact List.mem_cons_of_mem u (List.mem_cons_of_mem v h)
  · rw [if_neg hm]
    exact List.mem_cons_self u us

/-- A false result from forward_check means the fc flag is on. -/
theorem forward_check_false_flag (ctx : Ctx) (v : Var) (unassigned : List Var)
    (a : Assignment) (doms : Domains)
    (h : (forward_check ctx v unassigned a doms).1 = false) :
    ctx.options.fc = true := by
  by_contra hfc
  rw [forward_check, if_neg (fun hh => hfc hh)] at h
  exact absurd h (by simp)

/-- A false result from mac means the mac flag is on. -/
theorem mac_false_flag (ctx : Ctx) (unassigned : List Var) (a : Assignment)
    (doms : Domains) (h : (mac ctx unassigned a doms).1 = false) :
    ctx.options.mac = true := by
  by_contra hm
  rw [mac, if_neg (fun hh => hm hh)] at h
  exact absurd h (by simp)

/-- With the fc flag off, forward_check is the identity. -/
theorem forward_check_off (ctx : Ctx) (v : Var) (unassigned : List Var)
    (a : Assignment) (doms : Domains) (h : ctx.options.fc = false) :
    forward_check ctx v unassigned a doms = (true, doms) := by
  rw [forward_check, if_neg (by simp [h])]

/-- With the mac flag off, mac is the identity. -/
theorem mac_off (ctx : Ctx) (unassigned : List Var) (a : Assignment)
    (doms : Domains) (h : ctx.options.mac = false) :
    mac ctx unassigned a doms = (true, doms) := by
  rw [mac, if_neg (by simp [h])]


/-- Removal never creates values: an empty entry stays empty. -/
theorem removeD_empty (doms : Domains) (u : Var) (x : Int) (w : Var)
    (h : lookupD doms w = []) : lookupD (removeD doms u x) w = [] := by
  rw [lookupD_removeD]
  by_cases hw : w = u
  · subst hw
    rw [if_pos rfl, h]
    rfl
  · rwa [if_neg hw]

/-- The forward-checking inner loop keeps empty entries empty. -/
theorem fcInner_empty (cons : List KakuroConstraint) (v : Var) (a : Assignment)
    (nb : Var) (w : Var) :
    ∀ (snap : List Int) (doms : Domains), lookupD doms w = [] →
      lookupD (fcInner cons v a nb snap doms).2 w = [] := by
  intro snap
  induction snap with
  | nil => intro doms h; exact h
  | cons x rest ih =>
    intro doms h
    simp only [fcInner]
    by_cases hc : is_consistent cons v (aInsert a nb x) = true
    · rw [if_pos hc]
      exact ih doms h
    · rw [if_neg hc]
      by_cases he : lookupD (removeD doms nb x) nb = []
      · rw [if_pos he]
        exact removeD_empty doms nb x w h
      · rw [if_neg he]
        exact ih _ (removeD_empty doms nb x w h)

/-- The forward-checking outer loop keeps empty entries empty. -/
theorem fcOuter_empty (cons : List KakuroConstraint) (v : Var) (a : Assignment)
    (w : Var) :
    ∀ (nbs : List Var) (doms : Domains), lookupD doms w = [] →
      lookupD (fcOuter cons v a nbs doms).2 w = [] := by
  intro nbs
  induction nbs with
  | nil => intro doms h; exact h
  | cons nb rest ih =>
    intro doms h
    simp only [fcOuter]
    have hinner := fcInner_empty cons v a nb w (lookupD doms nb) doms h
    cases hfc : fcInner cons v a nb (lookupD doms nb) doms with
    | mk b doms' =>
      cases b with
      | true =>
        simp only []
        exact ih doms' (by rw [hfc] at hinner; exact hinner)
      | false =>
        simp only []
        rw [hfc] at hinner
        exact hinner

/-- forward_check keeps empty entries empty. -/
theorem forward_check_empty (ctx : Ctx) (v : Var) (unassigned : List Var)
    (a : Assignment) (doms : Domains) (w : Var) (h : lookupD doms w = []) :
    lookupD (forward_check ctx v unassigned a doms).2 w = [] := by
  rw [forward_check]
  by_cases hfc : ctx.options.fc = true
  · rw [if_pos hfc]
    exact fcOuter_empty ctx.constraints v a w _ doms h
  · rw [if_neg hfc]
    exact h

/-- The revise loop keeps empty entries empty. -/
theorem reviseGo_empty (cons : List KakuroConstraint) (xi xj : Var) (a : Assignment)
    (w : Var) :
    ∀ (snap : List Int) (rev : Bool) (doms : Domains), lookupD doms w = [] →
      lookupD (reviseGo cons xi xj a snap (rev, doms)).2 w = [] := by
  intro snap
  induction snap with
  | nil => intro rev doms h; exact h
  | cons vi rest ih =>
    intro rev doms h
    simp only [reviseGo]
    by_cases hk : keepPred cons xi xj a (lookupD doms xj) vi = true
    · rw [if_pos hk]
      exact ih rev doms h
    · rw [if_neg hk]
      exact ih true _ (removeD_empty doms xi vi w h)

/-- revise keeps empty entries empty. -/
theorem revise_empty (cons : List KakuroConstraint) (xi xj : Var) (a : Assignment)
    (doms : Domains) (w : Var) (h : lookupD doms w = []) :
    lookupD (revise cons xi xj a doms).2 w = [] :=
  reviseGo_empty cons xi xj a w _ false doms h

/-- One AC-3 pass keeps empty entries empty (final answer case). -/
theorem acPass_inl_empty (cons : List KakuroConstraint) (a : Assignment) (w : Var) :
    ∀ (queue : List (Var × Var)) (doms : Domains) (b : Bool) (d : Domains),
      acPass cons a queue doms = Sum.inl (b, d) → lookupD doms w = [] →
      lookupD d w = [] := by
  intro queue
  induction queue with
  | nil =>
    intro doms b d hp h
    simp only [acPass, Sum.inl.injEq, Prod.mk.injEq] at hp
    rw [← hp.2]
    exact h
  | cons arc rest ih =>
    intro doms b d hp h
    obtain ⟨xi, xj⟩ := arc
    simp only [acPass] at hp
    have hrev := revise_empty cons xi xj a doms w h
    cases hr : revise cons xi xj a doms with
    | mk rb doms' =>
      rw [hr] at hp hrev
      cases rb with
      | true =>
        simp only [] at hp
        by_cases he : lookupD doms' xi = []
        · rw [if_pos he] at hp
          obtain ⟨_, h2⟩ := Prod.mk.injEq .. ▸ Sum.inl.injEq .. ▸ hp
          exact h2 ▸ hrev
        · rw [if_neg he] at hp
          exact absurd hp (by simp)
      | false =>
        simp only [] at hp
        exact ih doms' b d hp hrev

/-- One AC-3 pass keeps empty entries empty (continuation case). -/
theorem acPass_inr_empty (cons : List KakuroConstraint) (a : Assignment) (w : Var) :
    ∀ (queue : List (Var × Var)) (doms : Domains) (q : List (Var × Var)) (d : Domains),
      acPass cons a queue doms = Sum.inr (q, d) → lookupD doms w = [] →
      lookupD d w = [] := by
  intro queue
  induction queue with
  | nil =>
    intro doms q d hp h
    exact absurd hp (by simp [acPass])
  | cons arc rest ih =>
    intro doms q d hp h
    obtain ⟨xi, xj⟩ := arc
    simp only [acPass] at hp
    have hrev := revise_empty cons xi xj a doms w h
    cases hr : revise cons xi xj a doms with
    | mk rb doms' =>
      rw [hr] at hp hrev
      cases rb with
      | true =>
        simp only [] at hp
        by_cases he : lookupD doms' xi = []
        · rw [if_pos he] at hp
          exact absurd hp (by simp)
        · rw [if_neg he] at hp
          obtain ⟨_, h2⟩ := Prod.mk.injEq .. ▸ Sum.inr.injEq .. ▸ hp
          exact h2 ▸ hrev
      | false =>
        simp only [] at hp
        exact ih doms' q d hp hrev

/-- The AC-3 worklist loop keeps empty entries empty. -/
theorem acRun_empty (cons : List KakuroConstraint) (a : Assignment) (w : Var) :
    ∀ (budget : Nat) (queue : List (Var × Var)) (doms : Domains),
      lookupD doms w = [] → lookupD (acRun cons a budget queue doms).2 w = [] := by
  intro budget
  induction budget with
  | zero => intro queue doms h; exact h
  | succ b ih =>
    intro queue doms h
    simp only [acRun]
    cases hp : acPass cons a queue doms with
    | inl r =>
      obtain ⟨rb, d⟩ := r
      simp only []
      exact acPass_inl_empty cons a w queue doms rb d hp h
    | inr r =>
      obtain ⟨q, d⟩ := r
      simp only []
      exact ih q d (acPass_inr_empty cons a w queue doms q d hp h)

/-- ac_3 keeps empty entries empty. -/
theorem ac_3_empty (ctx : Ctx) (unassigned : List Var) (a : Assignment)
    (doms : Domains) (w : Var) (h : lookupD doms w = []) :
    lookupD (ac_3 ctx unassigned a doms).2 w = [] := by
  rw [ac_3]
  by_cases hf : ctx.options.ac3 = true
  · rw [if_pos hf]
    exact acRun_empty ctx.constraints a w _ _ doms h
  · rw [if_neg hf]
    exact h

/-- mac keeps empty entries empty. -/
theorem mac_empty (ctx : Ctx) (unassigned : List Var) (a : Assignment)
    (doms : Domains) (w : Var) (h : lookupD doms w = []) :
    lookupD (mac ctx unassigned a doms).2 w = [] := by
  rw [mac]
  by_cases hf : ctx.options.mac = true
  · rw [if_pos hf]
    exact ac_3_empty ctx unassigned a doms w h
  · rw [if_neg hf]
    exact h


/-- The domains component written by restore. -/
theorem restore_domains (ctx : Ctx) (snap : Domains) (s : KState) :
    (restore ctx snap s).domains =
      if (ctx.options.fc || ctx.options.mac) then snap else s.domains := by
  rw [restore]
  by_cases h : (ctx.options.fc || ctx.options.mac) = true
  · rw [if_pos h, if_pos h]
  · rw [if_neg h, if_neg h]

/-- When the search loop reports no solution, the domains dict is back to
its state at loop entry (assuming the recursion argument has the same
property). -/
theorem btLoop_none_domains (ctx : Ctx)
    (recur : Assignment → KState → Option Assignment × KState)
    (a : Assignment) (un : List Var) (v : Var)
    (hrec : ∀ a' s₁ res t, recur a' s₁ = (res, t) → res = none →
      t.domains = s₁.domains) :
    ∀ (values : List Int) (s : KState) (res : Option Assignment) (s' : KState),
      btLoop ctx recur a un v values s = (res, s') → res = none →
      s'.domains = s.domains := by
  intro values
  induction values with
  | nil =>
    intro s res s' heq _
    simp only [btLoop, Prod.mk.injEq] at heq
    rw [← heq.2]
  | cons x rest ih =>
    intro s res s' heq hres
    subst hres
    simp only [btLoop] at heq
    split at heq
    · -- consistent
      split at heq
      next d2 hfc =>
        -- forward_check returned (true, d2)
        split at heq
        next d3 hmac =>
          -- mac returned (true, d3)
          split at heq
          next r s4 hrec' =>
            -- recur returned (some r, s4): contradicts res = none
            exact absurd (congrArg Prod.fst heq) (by simp)
          next s4 hrec' =>
            -- recur returned (none, s4)
            rw [ih _ _ _ heq rfl, restore_domains]
            by_cases hflag : (ctx.options.fc || ctx.options.mac) = true
            · rw [if_pos hflag]
            · rw [if_neg hflag]
              have hfcoff : ctx.options.fc = false := by
                cases hof : ctx.options.fc
                · rfl
                · exact absurd (by rw [hof]; simp) hflag
              have hmacoff : ctx.options.mac = false := by
                cases hom : ctx.options.mac
                · rfl
                · exact absurd (by rw [hom]; simp) hflag
              have h2 : d2 = s.domains := by
                have := forward_check_off ctx v un (aInsert a v x)
                  ({ s with steps := s.steps + 1 } : KState).domains hfcoff
                rw [this] at hfc
                exact (Prod.mk.injEq .. ▸ hfc).2.symm
              have h3 : d3 = d2 := by
                have := mac_off ctx un (aInsert a v x) d2 hmacoff
                rw [this] at hmac
                exact (Prod.mk.injEq .. ▸ hmac).2.symm
              have h4 := hrec _ _ _ _ hrec' rfl
              simp only [] at h4
              rw [h4, h3, h2]
        next d3 hmac =>
          -- mac returned (false, d3)
          rw [ih _ _ _ heq rfl, restore_domains]
          have hm := mac_false_flag ctx un (aInsert a v x) d2 (by rw [hmac])
          rw [if_pos (by rw [hm]; simp)]
      next d2 hfc =>
        -- forward_check returned (false, d2)
        rw [ih _ _ _ heq rfl, restore_domains]
        have hf := forward_check_false_flag ctx v un (aInsert a v x) _ (by rw [hfc])
        rw [if_pos (by rw [hf]; simp)]
    · -- inconsistent
      rw [ih _ _ _ heq rfl, restore_domains]
      by_cases hflag : (ctx.options.fc || ctx.options.mac) = true
      · rw [if_pos hflag]
      · rw [if_neg hflag]


/-- When the search reports no solution, the domains dict is unchanged:
the snapshot/restore discipline (or, with fc and mac both off, the absence
of any mutation) leaves no residue. -/
theorem btFuel_none_domains (ctx : Ctx) :
    ∀ (g : Nat) (s : KState) (a : Assignment) (res : Option Assignment) (s' : KState),
      btFuel ctx g s a = (res, s') → res = none → s'.domains = s.domains := by
  intro g
  induction g with
  | zero =>
    intro s a res s' heq _
    simp only [btFuel, Prod.mk.injEq] at heq
    rw [← heq.2]
  | succ g' ih =>
    intro s a res s' heq hres
    subst hres
    simp only [btFuel] at heq
    split at heq
    · exact absurd (congrArg Prod.fst heq) (by simp)
    · split at heq
      · simp only [Prod.mk.injEq] at heq
        rw [← heq.2]
      · exact btLoop_none_domains ctx _ a _ _
          (fun a' s₁ r t h hn => ih s₁ a' r t h hn) _ s none s' heq rfl

/-- The search loop keeps empty domain entries empty (assuming the
recursion argument has the same property). -/
theorem btLoop_empty (ctx : Ctx)
    (recur : Assignment → KState → Option Assignment × KState)
    (a : Assignment) (un : List Var) (v : Var) (w : Var)
    (hrec : ∀ a' s₁ res t, recur a' s₁ = (res, t) →
      lookupD s₁.domains w = [] → lookupD t.domains w = []) :
    ∀ (values : List Int) (s : KState) (res : Option Assignment) (s' : KState),
      btLoop ctx recur a un v values s = (res, s') → lookupD s.domains w = [] →
      lookupD s'.domains w = [] := by
  intro values
  induction values with
  | nil =>
    intro s res s' heq hw
    simp only [btLoop, Prod.mk.injEq] at heq
    rw [← heq.2]
    exact hw
  | cons x rest ih =>
    intro s res s' heq hw
    simp only [btLoop] at heq
    have hrestore : ∀ t : KState, lookupD t.domains w = [] →
        lookupD (restore ctx s.domains t).domains w = [] := by
      intro t ht
      rw [restore_domains]
      by_cases hflag : (ctx.options.fc || ctx.options.mac) = true
      · rw [if_pos hflag]; exact hw
      · rw [if_neg hflag]; exact ht
    split at heq
    · split at heq
      next d2 hfc =>
        have hd2 : lookupD d2 w = [] := by
          have := forward_check_empty ctx v un (aInsert a v x)
            ({ s with steps := s.steps + 1 } : KState).domains w hw
          rw [hfc] at this
          exact this
        split at heq
        next d3 hmac =>
          have hd3 : lookupD d3 w = [] := by
            have := mac_empty ctx un (aInsert a v x) d2 w hd2
            rw [hmac] at this
            exact this
          split at heq
          next r s4 hrec' =>
            have h4 := hrec _ _ _ _ hrec' hd3
            simp only [Prod.mk.injEq] at heq
            rw [← heq.2]
            exact h4
          next s4 hrec' =>
            have h4 := hrec _ _ _ _ hrec' hd3
            exact ih _ _ _ heq (hrestore s4 h4)
        next d3 hmac =>
          have hd3 : lookupD d3 w = [] := by
            have := mac_empty ctx un (aInsert a v x) d2 w hd2
            rw [hmac] at this
            exact this
          exact ih _ _ _ heq (hrestore _ hd3)
      next d2 hfc =>
        have hd2 : lookupD d2 w = [] := by
          have := forward_check_empty ctx v un (aInsert a v x)
            ({ s with steps := s.steps + 1 } : KState).domains w hw
          rw [hfc] at this
          exact this
        exact ih _ _ _ heq (hrestore _ hd2)
    · exact ih _ _ _ heq (hrestore _ hw)

/-- The whole search keeps empty domain entries empty. -/
theorem btFuel_empty (ctx : Ctx) (w : Var) :
    ∀ (g : Nat) (s : KState) (a : Assignment) (res : Option Assignment) (s' : KState),
      btFuel ctx g s a = (res, s') → lookupD s.domains w = [] →
      lookupD s'.domains w = [] := by
  intro g
  induction g with
  | zero =>
    intro s a res s' heq hw
    simp only [btFuel, Prod.mk.injEq] at heq
    rw [← heq.2]
    exact hw
  | succ g' ih =>
    intro s a res s' heq hw
    simp only [btFuel] at heq
    split at heq
    · simp only [Prod.mk.injEq] at heq
      rw [← heq.2]
      exact hw
    · split at heq
      · simp only [Prod.mk.injEq] at heq
        rw [← heq.2]
        exact hw
      · exact btLoop_empty ctx _ a _ _ w
          (fun a' s₁ r t h hn => ih s₁ a' r t h hn) _ s res s' heq hw

/-- A solution reported by the search loop comes out of the recursion
argument applied to the assignment extended at the loop's variable. -/
theorem btLoop_some_src (ctx : Ctx)
    (recur : Assignment → KState → Option Assignment × KState)
    (a : Assignment) (un : List Var) (v : Var) :
    ∀ (values : List Int) (s : KState) (r : Assignment) (s' : KState),
      btLoop ctx recur a un v values s = (some r, s') →
      ∃ (x : Int) (s₁ s₂ : KState), recur (aInsert a v x) s₁ = (some r, s₂) := by
  intro values
  induction values with
  | nil =>
    intro s r s' heq
    simp only [btLoop, Prod.mk.injEq] at heq
    exact absurd heq.1 (by simp)
  | cons x rest ih =>
    intro s r s' heq
    simp only [btLoop] at heq
    split at heq
    · split at heq
      next d2 hfc =>
        split at heq
        next d3 hmac =>
          split at heq
          next r4 s4 hrec' =>
            simp only [Prod.mk.injEq, Option.some.injEq] at heq
            exact ⟨x, _, s4, by rw [hrec', heq.1]⟩
          next s4 hrec' =>
            exact ih _ _ _ heq
        next d3 hmac =>
          exact ih _ _ _ heq
      next d2 hfc =>
        exact ih _ _ _ heq
    · exact ih _ _ _ heq

/-- Structural facts about a solution returned by the search: its size
equals the variable count, its keys were already present or come from the
variable list, and freshly added keys keep the key list duplicate-free. -/
theorem btFuel_some_invariant (ctx : Ctx) :
    ∀ (g : Nat) (s : KState) (a : Assignment) (r : Assignment) (s' : KState),
      btFuel ctx g s a = (some r, s') →
      r.length = ctx.vars.length ∧
      (∀ k, aHasKey r k = true → aHasKey a k = true ∨ k ∈ ctx.vars) ∧
      ((a.map Prod.fst).Nodup → (r.map Prod.fst).Nodup) := by
  intro g
  induction g with
  | zero =>
    intro s a r s' heq
    exact absurd (congrArg Prod.fst heq) (by simp [btFuel])
  | succ g' ih =>
    intro s a r s' heq
    simp only [btFuel] at heq
    split at heq
    next hlen =>
      simp only [Prod.mk.injEq, Option.some.injEq] at heq
      obtain ⟨hra, _⟩ := heq
      subst hra
      exact ⟨hlen, fun k hk => Or.inl hk, fun h => h⟩
    split at heq
    · exact absurd (congrArg Prod.fst heq) (by simp)
    next u us hfil =>
      obtain ⟨x, s₁, s₂, hr⟩ := btLoop_some_src ctx _ a _ _ _ s r s' heq
      have hv : select_variable ctx s.domains u us ∈ u :: us :=
        select_variable_mem ctx s.domains u us
      rw [← hfil] at hv
      have hv' := List.mem_filter.mp hv
      have hvvars : select_variable ctx s.domains u us ∈ ctx.vars := hv'.1
      have hvfresh : aHasKey a (select_variable ctx s.domains u us) = false := by
        have := hv'.2
        simp only [decide_eq_true_eq] at this
        exact Bool.not_eq_true _ ▸ (by simpa using this)
      obtain ⟨hlen, hkeys, hnd⟩ := ih s₁ _ r s₂ hr
      refine ⟨hlen, ?_, ?_⟩
      · intro k hk
        rcases hkeys k hk with hk' | hk'
        · rw [aHasKey_aInsert] at hk'
          by_cases hkv : k = select_variable ctx s.domains u us
          · exact Or.inr (hkv ▸ hvvars)
          · rw [if_neg hkv] at hk'
            exact Or.inl hk'
        · exact Or.inr hk'
      · intro hand
        apply hnd
        rw [aInsert_keys_fresh a _ x hvfresh]
        rw [List.nodup_append]
        refine ⟨hand, List.nodup_singleton _, ?_⟩
        intro y hy hy'
        rw [List.mem_singleton] at hy'
        subst hy'
        rw [← aHasKey_eq_mem_keys] at hy
        rw [hvfresh] at hy
        exact Bool.false_ne_true hy


/-- A duplicate-free assignment over keys drawn from a duplicate-free
variable list, with as many entries as variables, covers every variable. -/
theorem keys_complete (variableList : List Var) (_hnd : variableList.Nodup)
    (r : Assignment) (hsub : ∀ k, aHasKey r k = true → k ∈ variableList)
    (hlen : r.length = variableList.length) (hrnd : (r.map Prod.fst).Nodup) :
    ∀ u ∈ variableList, aHasKey r u = true := by
  have hsubkeys : (r.map Prod.fst) ⊆ variableList := by
    intro k hk
    exact hsub k ((aHasKey_eq_mem_keys r k).mpr hk)
  have hsp := List.Nodup.subperm hrnd hsubkeys
  have hperm := hsp.perm_of_length_le (by
    rw [List.length_map, hlen])
  intro u hu
  rw [aHasKey_eq_mem_keys]
  exact hperm.mem_iff.mpr hu

/-- Variables outside the variable list start with no domain entry. -/
theorem lookupD_init_outside (variableList : List Var) (w : Var)
    (hw : w ∉ variableList) :
    lookupD (variableList.map (fun v => (v, digits))) w = [] := by
  induction variableList with
  | nil => rfl
  | cons v rest ih =>
    have hwv : v ≠ w := fun h => hw (h ▸ List.mem_cons_self v rest)
    simp only [List.map_cons, lookupD, if_neg hwv]
    exact ih (fun h => hw (List.mem_cons_of_mem v h))

/-- After construction, variables outside the variable list still have no
domain entry. -/
theorem mkCSP_outside_empty (variableList : List Var) (cons : List KakuroConstraint)
    (o : Options) (s0 : KState) (h0 : mkCSP variableList cons o = some s0)
    (w : Var) (hw : w ∉ variableList) : lookupD s0.domains w = [] := by
  have hinit := lookupD_init_outside variableList w hw
  simp only [mkCSP] at h0
  cases hnc : node_consistency ⟨variableList, cons, o⟩
      (List.map (fun v => (v, digits)) variableList) with
  | none =>
    rw [hnc] at h0
    exact absurd h0 (by simp)
  | some p =>
    obtain ⟨b, d1⟩ := p
    rw [hnc] at h0
    simp only [Option.some.injEq] at h0
    have hd1 : lookupD d1 w = [] := by
      rw [node_consistency] at hnc
      by_cases hncflag :
          (Ctx.mk variableList cons o).options.nc = true
      · rw [if_pos hncflag] at hnc
        rw [ncLoop_frame cons variableList _ b d1 hnc w hw]
        exact hinit
      · rw [if_neg hncflag] at hnc
        simp only [Option.some.injEq, Prod.mk.injEq] at hnc
        rw [← hnc.2]
        exact hinit
    rw [← h0]
    exact ac_3_empty ⟨variableList, cons, o⟩ variableList [] d1 w hd1

/-- Claim C5: after a solve call returns, the domain of every variable not
assigned by the accepted solution (every variable, when the result is
no-solution) equals its value right after the construction-time node and
arc consistency passes — sibling branches leave no residue.  Stated for a
duplicate-free variable list and any recursion budget. -/
theorem bt_search_restores_offpath_domains
    (variableList : List Var) (cons : List KakuroConstraint) (o : Options)
    (hnd : variableList.Nodup) (s0 : KState)
    (h0 : mkCSP variableList cons o = some s0)
    (g : Nat) (res : Option Assignment) (s' : KState)
    (hrun : btFuel ⟨variableList, cons, o⟩ g s0 [] = (res, s'))
    (v : Var) (hv : ∀ a, res = some a → aHasKey a v = false) :
    lookupD s'.domains v = lookupD s0.domains v := by
  cases res with
  | none =>
    rw [btFuel_none_domains ⟨variableList, cons, o⟩ g s0 [] none s' hrun rfl]
  | some r =>
    have hk := hv r rfl
    obtain ⟨hlen, hkeys, hrnd⟩ :=
      btFuel_some_invariant ⟨variableList, cons, o⟩ g s0 [] r s' hrun
    have hsub : ∀ k, aHasKey r k = true → k ∈ variableList := by
      intro k hkk
      rcases hkeys k hkk with h | h
      · exact absurd h (by simp [aHasKey, aLookup])
      · exact h
    have hvout : v ∉ variableList := by
      intro hmem
      have := keys_complete variableList hnd r hsub hlen (hrnd (by simp)) v hmem
      rw [hk] at this
      exact Bool.false_ne_true this
    have h0e : lookupD s0.domains v = [] :=
      mkCSP_outside_empty variableList cons o s0 h0 v hvout
    have h1e : lookupD s'.domains v = [] :=
      btFuel_empty ⟨variableList, cons, o⟩ v g s0 [] (some r) s' hrun h0e
    rw [h0e, h1e]

/-- Witness for bt_search_restores_offpath_domains on a one-cell puzzle
with unreachable target: the search fails and the domain of the cell is
restored to its post-construction value. -/
theorem bt_search_restores_offpath_domains_witness :
    lookupD (KState.domains ⟨[(vA, digits)], 9⟩) vA =
      lookupD (KState.domains ⟨[(vA, digits)], 0⟩) vA :=
  bt_search_restores_offpath_domains [vA] [⟨[vA], 0⟩] oFF (by decide)
    ⟨[(vA, digits)], 0⟩ (by decide) 2 none ⟨[(vA, digits)], 9⟩ (by decide) vA
    (fun a h => Option.noConfusion h)


/-- Dropping the head of a sublist survives erasing that element. -/
theorem sublist_erase_of_cons_sublist {a : Int} {l d : List Int}
    (h : (a :: l).Sublist d) : l.Sublist (d.erase a) := by
  induction d with
  | nil => simp at h
  | cons b d' ih =>
    rw [List.sublist_cons_iff] at h
    rcases h with h | ⟨r, hr, hrs⟩
    · rw [List.erase_cons]
      by_cases hb : b = a
      · rw [if_pos (by simp [hb])]
        exact (List.sublist_cons_self a l).trans h
      · rw [if_neg (by simp [hb])]
        exact (ih h).cons b
    · injection hr with h1 h2
      subst h1
      rw [List.erase_cons, if_pos (by simp)]
      exact h2 ▸ hrs

/-- Removal never grows the total candidate count. -/
theorem sizeD_removeD_le (doms : Domains) (v : Var) (x : Int) :
    sizeD (removeD doms v x) ≤ sizeD doms := by
  induction doms with
  | nil => simp [removeD]
  | cons p t ih =>
    obtain ⟨k, d⟩ := p
    by_cases hk : k = v
    · subst hk
      have hrm : removeD ((k, d) :: t) k x = (k, d.erase x) :: t := by
        simp [removeD]
      rw [hrm]
      simp only [sizeD, List.map_cons, List.sum_cons]
      have h1 : (d.erase x).length ≤ d.length := (List.erase_sublist x d).length_le
      omega
    · have hrm : removeD ((k, d) :: t) v x = (k, d) :: removeD t v x := by
        simp [removeD, hk]
      rw [hrm]
      simp only [sizeD, List.map_cons, List.sum_cons]
      have h2 := ih
      simp only [sizeD] at h2
      omega

/-- Removing a value that is present strictly shrinks the count. -/
theorem sizeD_removeD_lt (doms : Domains) (v : Var) (x : Int)
    (hx : x ∈ lookupD doms v) : sizeD (removeD doms v x) < sizeD doms := by
  induction doms with
  | nil => simp [lookupD] at hx
  | cons p t ih =>
    obtain ⟨k, d⟩ := p
    by_cases hk : k = v
    · subst hk
      have hlk : lookupD ((k, d) :: t) k = d := by simp [lookupD]
      rw [hlk] at hx
      have hrm : removeD ((k, d) :: t) k x = (k, d.erase x) :: t := by
        simp [removeD]
      rw [hrm]
      simp only [sizeD, List.map_cons, List.sum_cons]
      have h1 := List.length_erase_of_mem hx
      have h2 : 0 < d.length := List.length_pos_of_mem hx
      omega
    · have hlk : lookupD ((k, d) :: t) v = lookupD t v := by simp [lookupD, hk]
      rw [hlk] at hx
      have hrm : removeD ((k, d) :: t) v x = (k, d) :: removeD t v x := by
        simp [removeD, hk]
      rw [hrm]
      simp only [sizeD, List.map_cons, List.sum_cons]
      have h3 := ih hx
      simp only [sizeD] at h3
      omega

/-- The revise loop never grows the candidate count; when it sets the
revised flag starting from an unset one, and the pending snapshot is a
sublist of the live domain of xi, the count strictly shrinks. -/
theorem reviseGo_sizeD (cons : List KakuroConstraint) (xi xj : Var) (a : Assignment) :
    ∀ (snap : List Int) (rev : Bool) (doms : Domains),
      snap.Sublist (lookupD doms xi) →
      sizeD (reviseGo cons xi xj a snap (rev, doms)).2 ≤ sizeD doms ∧
      (rev = false → (reviseGo cons xi xj a snap (rev, doms)).1 = true →
        sizeD (reviseGo cons xi xj a snap (rev, doms)).2 < sizeD doms) := by
  intro snap
  induction snap with
  | nil =>
    intro rev doms _
    refine ⟨le_refl _, ?_⟩
    intro h1 h2
    rw [reviseGo] at h2
    rw [h1] at h2
    exact absurd h2 (by simp)
  | cons vi rest ih =>
    intro rev doms hsub
    simp only [reviseGo]
    by_cases hk : keepPred cons xi xj a (lookupD doms xj) vi = true
    · rw [if_pos hk]
      exact ih rev doms ((List.sublist_cons_self vi rest).trans hsub)
    · rw [if_neg hk]
      have hvi : vi ∈ lookupD doms xi := hsub.mem (List.mem_cons_self vi rest)
      have hlt := sizeD_removeD_lt doms xi vi hvi
      have hsub' : rest.Sublist (lookupD (removeD doms xi vi) xi) := by
        rw [lookupD_removeD, if_pos rfl]
        exact sublist_erase_of_cons_sublist hsub
      have hih := ih true (removeD doms xi vi) hsub'
      exact ⟨le_trans hih.1 (le_of_lt hlt), fun _ _ => lt_of_le_of_lt hih.1 hlt⟩

/-- The revise loop reports no revision only when it removed nothing, in
which case the domains come back unchanged (and the flag was unset). -/
theorem reviseGo_false_eq (cons : List KakuroConstraint) (xi xj : Var) (a : Assignment) :
    ∀ (snap : List Int) (rev : Bool) (doms : Domains) (rev' : Bool) (doms' : Domains),
      reviseGo cons xi xj a snap (rev, doms) = (rev', doms') → rev' = false →
      doms' = doms ∧ rev = false := by
  intro snap
  induction snap with
  | nil =>
    intro rev doms rev' doms' heq hf
    simp only [reviseGo, Prod.mk.injEq] at heq
    refine ⟨heq.2.symm, ?_⟩
    rw [← heq.1] at hf
    exact hf
  | cons vi rest ih =>
    intro rev doms rev' doms' heq hf
    simp only [reviseGo] at heq
    by_cases hk : keepPred cons xi xj a (lookupD doms xj) vi = true
    · rw [if_pos hk] at heq
      exact ih rev doms rev' doms' heq hf
    · rw [if_neg hk] at heq
      obtain ⟨_, habs⟩ := ih true _ rev' doms' heq hf
      exact absurd habs (by simp)

/-- A revise call that reports no revision leaves the domains unchanged. -/
theorem revise_false_eq (cons : List KakuroConstraint) (xi xj : Var) (a : Assignment)
    (doms doms' : Domains) (h : revise cons xi xj a doms = (false, doms')) :
    doms' = doms := by
  rw [revise] at h
  exact (reviseGo_false_eq cons xi xj a (lookupD doms xi) false doms false doms' h rfl).1

/-- A revise call that reports a revision strictly shrinks the candidate
count. -/
theorem revise_sizeD (cons : List KakuroConstraint) (xi xj : Var) (a : Assignment)
    (doms : Domains) (h : (revise cons xi xj a doms).1 = true) :
    sizeD (revise cons xi xj a doms).2 < sizeD doms := by
  have hgo := reviseGo_sizeD cons xi xj a (lookupD doms xi) false doms
    (List.Sublist.refl _)
  rw [revise] at h ⊢
  exact hgo.2 rfl h

/-- An AC-3 pass that continues has strictly shrunk the candidate count. -/
theorem acPass_inr_sizeD (cons : List KakuroConstraint) (a : Assignment) :
    ∀ (queue : List (Var × Var)) (doms : Domains) (q : List (Var × Var)) (d : Domains),
      acPass cons a queue doms = Sum.inr (q, d) → sizeD d < sizeD doms := by
  intro queue
  induction queue with
  | nil =>
    intro doms q d hp
    exact absurd hp (by simp [acPass])
  | cons arc rest ih =>
    intro doms q d hp
    obtain ⟨xi, xj⟩ := arc
    simp only [acPass] at hp
    cases hr : revise cons xi xj a doms with
    | mk rb doms' =>
      rw [hr] at hp
      cases rb with
      | true =>
        simp only [] at hp
        by_cases he : lookupD doms' xi = []
        · rw [if_pos he] at hp
          exact absurd hp (by simp)
        · rw [if_neg he] at hp
          obtain ⟨_, h2⟩ := Prod.mk.injEq .. ▸ Sum.inr.injEq .. ▸ hp
          have hlt := revise_sizeD cons xi xj a doms (by rw [hr])
          rw [hr] at hlt
          exact h2 ▸ hlt
      | false =>
        simp only [] at hp
        have hd : doms' = doms := revise_false_eq cons xi xj a doms doms' hr
        subst hd
        exact ih doms' q d hp

/-- The AC-3 worklist loop computes the same answer for every budget
exceeding the total candidate count, so the budget used by ac3Go (one more
than the count) is always sufficient: the loop stops through its worklist,
never by exhausting the budget. -/
theorem acRun_budget_switch (cons : List KakuroConstraint) (a : Assignment) :
    ∀ (b1 b2 : Nat) (queue : List (Var × Var)) (doms : Domains),
      sizeD doms < b1 → sizeD doms < b2 →
      acRun cons a b1 queue doms = acRun cons a b2 queue doms := by
  intro b1
  induction b1 using Nat.strong_induction_on with
  | _ b1 ih =>
    intro b2 queue doms h1 h2
    cases b1 with
    | zero => exact absurd h1 (by omega)
    | succ c1 =>
      cases b2 with
      | zero => exact absurd h2 (by omega)
      | succ c2 =>
        simp only [acRun]
        cases hp : acPass cons a queue doms with
        | inl r => rfl
        | inr r =>
          obtain ⟨q, d⟩ := r
          have hlt := acPass_inr_sizeD cons a queue doms q d hp
          exact ih c1 (by omega) c2 q d (by omega) (by omega)


/-- Assigning a variable drawn from the unassigned filter strictly shrinks
that filter. -/
theorem unassigned_shrinks (ctx : Ctx) (a : Assignment) (v : Var) (x : Int)
    (hv : v ∈ ctx.vars.filter (fun u => ¬ aHasKey a u)) :
    (ctx.vars.filter (fun u => ¬ aHasKey (aInsert a v x) u)).length <
      (ctx.vars.filter (fun u => ¬ aHasKey a u)).length := by
  have hsplit : ctx.vars.filter (fun u => ¬ aHasKey (aInsert a v x) u) =
      (ctx.vars.filter (fun u => ¬ aHasKey a u)).filter
        (fun u => ¬ aHasKey (aInsert a v x) u) := by
    rw [List.filter_filter]
    apply List.filter_congr
    intro u _
    by_cases hnew : aHasKey (aInsert a v x) u = true
    · simp [hnew]
    · have hold : aHasKey a u = false := by
        rw [aHasKey_aInsert] at hnew
        by_cases huv : u = v
        · rw [if_pos huv] at hnew
          exact absurd rfl hnew
        · rw [if_neg huv] at hnew
          exact Bool.not_eq_true _ ▸ (by simpa using hnew)
      simp [hnew, hold]
  rw [hsplit]
  rw [List.length_filter_lt_length_iff_exists]
  refine ⟨v, hv, ?_⟩
  rw [aHasKey_aInsert, if_pos rfl]
  simp

/-- The search loop only probes the recursion argument on extensions of
its assignment at its variable, so two recursion arguments agreeing there
give identical loops. -/
theorem btLoop_congr (ctx : Ctx)
    (recur1 recur2 : Assignment → KState → Option Assignment × KState)
    (a : Assignment) (un : List Var) (v : Var)
    (hagree : ∀ (x : Int) (s₁ : KState),
      recur1 (aInsert a v x) s₁ = recur2 (aInsert a v x) s₁) :
    ∀ (values : List Int) (s : KState),
      btLoop ctx recur1 a un v values s = btLoop ctx recur2 a un v values s := by
  intro values
  induction values with
  | nil => intro s; rfl
  | cons x rest ih =>
    intro s
    simp only [btLoop]
    by_cases hc : is_consistent ctx.constraints v (aInsert a v x) = true
    · rw [if_pos hc, if_pos hc]
      cases hfc : forward_check ctx v un (aInsert a v x)
          ({ s with steps := s.steps + 1 } : KState).domains with
      | mk fb d2 =>
        cases fb with
        | true =>
          simp only []
          cases hmac : mac ctx un (aInsert a v x) d2 with
          | mk mb d3 =>
            cases mb with
            | true =>
              simp only []
              rw [hagree]
              cases hrec : recur2 (aInsert a v x)
                  { domains := d3, steps := s.steps + 1 } with
              | mk r4 s4 =>
                cases r4 with
                | some r => simp only []
                | none =>
                  simp only []
                  exact ih _
            | false =>
              simp only []
              exact ih _
        | false =>
          simp only []
          exact ih _
    · rw [if_neg hc, if_neg hc]
      exact ih _

/-- The search computes the same answer for every recursion budget
exceeding the number of unassigned variables, so the budget used by solve
(one more than the variable count) is always sufficient: the search
returns through its own control flow, never by exhausting the budget. -/
theorem btFuel_eq_of_lt (ctx : Ctx) :
    ∀ (g1 g2 : Nat) (s : KState) (a : Assignment),
      (ctx.vars.filter (fun u => ¬ aHasKey a u)).length < g1 →
      (ctx.vars.filter (fun u => ¬ aHasKey a u)).length < g2 →
      btFuel ctx g1 s a = btFuel ctx g2 s a := by
  intro g1
  induction g1 using Nat.strong_induction_on with
  | _ g1 ih =>
    intro g2 s a h1 h2
    cases g1 with
    | zero => exact absurd h1 (by omega)
    | succ c1 =>
      cases g2 with
      | zero => exact absurd h2 (by omega)
      | succ c2 =>
        simp only [btFuel]
        by_cases hlen : a.length = ctx.vars.length
        · rw [if_pos hlen, if_pos hlen]
        · rw [if_neg hlen, if_neg hlen]
          cases hfil : ctx.vars.filter (fun u => ¬ aHasKey a u) with
          | nil => rfl
          | cons u us =>
            apply btLoop_congr
            intro x s₁
            have hv : select_variable ctx s.domains u us ∈
                ctx.vars.filter (fun u => ¬ aHasKey a u) := by
              rw [hfil]
              exact select_variable_mem ctx s.domains u us
            have hshrink := unassigned_shrinks ctx a _ x hv
            rw [hfil] at hshrink h1 h2
            exact ih c1 (by omega) c2 s₁ _ (by omega) (by omega)

/-- The budget chosen by solve matches any larger budget. -/
theorem solve_eq_btFuel (ctx : Ctx) (s : KState) (g : Nat)
    (hg : ctx.vars.length < g) : solve ctx s = btFuel ctx g s [] := by
  rw [solve]
  have hle : (ctx.vars.filter (fun u => ¬ aHasKey ([] : Assignment) u)).length ≤
      ctx.vars.length := List.length_filter_le _ _
  exact btFuel_eq_of_lt ctx (ctx.vars.length + 1) g s [] (by omega) (by omega)

end KakuroSpec
